import Mathlib

/-!
Shallow embedding of `src/numeric_analysis.py`.

Numbers are modelled as rationals (`ℚ`): the Python source performs only
field arithmetic on its inputs.  Python's `ZeroDivisionError` (division by a
zero denominator) and `IndexError` (indexing past the end of a list) are
modelled by `Option`: a run that would raise returns `none`.  The formatter
`convert_poly_to_str` is modelled over `Int` coefficients, for which Python's
f-string rendering of a coefficient coincides with `toString : Int → String`.
-/

/-- The `Lagrange` dataclass: one Lagrange-basis term, holding the other
nodes' x-coordinates, the denominator product, and a numerator weight. -/
structure Lagrange where
  x_array : List ℚ
  denominator : ℚ
  numerator : ℚ
deriving Repr, DecidableEq

instance : Inhabited Lagrange := ⟨⟨[], 0, 1⟩⟩

/-- Method `Lagrange.evaluate`: `product = numerator`; multiply `(eval_point - x)` for
each `x` in `x_array`; divide by `denominator`.  The division raises
`ZeroDivisionError` when the denominator is zero, modelled as `none`. -/
def Lagrange.evaluate (l : Lagrange) (eval_point : ℚ) : Option ℚ :=
  let product := l.x_array.foldl (fun acc x_val => acc * (eval_point - x_val)) l.numerator
  if l.denominator = 0 then none else some (product / l.denominator)

/-- Function `horner`: `result = 0`; for each coefficient, `result = result * x + coeff`. -/
def horner (polynomial : List ℚ) (x_val : ℚ) : ℚ :=
  polynomial.foldl (fun result coeff => result * x_val + coeff) 0

/-- Function `get_lagranges`: for each index `i` of `x_arr`, collect `x_arr[j]` for all
`j ≠ i` (ascending `j`) and the product of `x_arr[i] - x_arr[j]` over those `j`;
the numerator defaults to `1`. -/
def get_lagranges (x_arr : List ℚ) : List Lagrange :=
  (List.range x_arr.length).map fun i =>
    { x_array := ((List.range x_arr.length).filter (fun j => j ≠ i)).map
        (fun j => x_arr.getD j 0)
      denominator := (((List.range x_arr.length).filter (fun j => j ≠ i)).map
        (fun j => x_arr.getD i 0 - x_arr.getD j 0)).prod
      numerator := 1 }

/-- The loop of `interpol_poly`: walk the basis entries, setting entry `i`'s
numerator to `y_arr[i]`; the index access raises `IndexError` (`none`) when
`i` is past the end of `y_arr`. -/
def attachAux (y_arr : List ℚ) : List Lagrange → Nat → Option (List Lagrange)
  | [], _ => some []
  | l :: rest, i =>
    match y_arr[i]? with
    | none => none
    | some y => (attachAux y_arr rest (i + 1)).map
        (fun rs => { l with numerator := y } :: rs)

/-- Function `interpol_poly`: build the basis from `x_arr`, then attach `y_arr` as
numerators. -/
def interpol_poly (x_arr y_arr : List ℚ) : Option (List Lagrange) :=
  attachAux y_arr (get_lagranges x_arr) 0

/-- The loop of `evaluate_lagranges`: accumulate `poly_sum`, adding each
entry's `evaluate` result; a `ZeroDivisionError` in any entry aborts the run. -/
def evalAux (eval_point : ℚ) : List Lagrange → ℚ → Option ℚ
  | [], poly_sum => some poly_sum
  | l :: rest, poly_sum =>
    match l.evaluate eval_point with
    | none => none
    | some v => evalAux eval_point rest (poly_sum + v)

/-- Function `evaluate_lagranges`: sum the entries' evaluations, starting from `0`. -/
def evaluate_lagranges (lagrange_list : List Lagrange) (eval_point : ℚ) : Option ℚ :=
  evalAux eval_point lagrange_list 0

/-- The loop of `convert_poly_to_str`, carrying the element index and the
string built so far.  At the last index the function returns
`poly_str ++ " " ++ coeff`; before a negative coefficient it drops the last
character of `poly_str` (the previous `+`); otherwise it appends
`coeff ++ "x^" ++ exponent ++ " +"`.  Falling off the loop (empty input)
returns Python's `None`, modelled as `none`. -/
def convertAux (n : Nat) : List Int → Nat → String → Option String
  | [], _, _ => none
  | coeff :: rest, i, poly_str =>
    if i = n - 1 then some (poly_str ++ " " ++ toString coeff)
    else
      let ps := if coeff < 0 then poly_str.dropRight 1 else poly_str
      convertAux n rest (i + 1)
        (ps ++ toString coeff ++ "x^" ++ toString (n - (i + 1)) ++ " +")

/-- Function `convert_poly_to_str`: render a coefficient list (highest degree first) as
a readable polynomial string. -/
def convert_poly_to_str (coeffs : List Int) : Option String :=
  convertAux coeffs.length coeffs 0 ""

/-- The value `Lagrange.evaluate` produces when the denominator is nonzero. -/
def evalVal (l : Lagrange) (eval_point : ℚ) : ℚ :=
  (l.x_array.foldl (fun acc x_val => acc * (eval_point - x_val)) l.numerator) / l.denominator

/-- Modelled from the spec: the naive power-sum evaluation of a coefficient
list (highest degree first), `sum over i of coefficients[i] * x^(n-1-i)`, the
reference point of the claimed Horner equivalence. -/
def naive_power_sum (coeffs : List ℚ) (x : ℚ) : ℚ :=
  match coeffs with
  | [] => 0
  | c :: rest => c * x ^ rest.length + naive_power_sum rest x

/-- State-passing form of `Lagrange.evaluate`: the method body reads
`self.numerator`, `self.x_array` and `self.denominator` and writes only the
local variable `product`, so the receiver after the call is the receiver
before it.  Returned alongside the result to let frame properties be stated. -/
def Lagrange.evaluateS (l : Lagrange) (eval_point : ℚ) : Option ℚ × Lagrange :=
  (l.evaluate eval_point, l)

/-- State-passing form of the `evaluate_lagranges` loop: threads each entry's
post-call state back into the basis list. -/
def evalAuxS (eval_point : ℚ) : List Lagrange → ℚ → Option ℚ × List Lagrange
  | [], poly_sum => (some poly_sum, [])
  | l :: rest, poly_sum =>
    match l.evaluateS eval_point with
    | (none, l2) => (none, l2 :: rest)
    | (some v, l2) =>
      let r := evalAuxS eval_point rest (poly_sum + v)
      (r.1, l2 :: r.2)

/-- State-passing form of `evaluate_lagranges`. -/
def evaluate_lagrangesS (lagrange_list : List Lagrange) (eval_point : ℚ) :
    Option ℚ × List Lagrange :=
  evalAuxS eval_point lagrange_list 0

/-- The list a successful `attachAux` run produces: entry `k` of `ls` with its
numerator replaced by `y_arr[i + k]`. -/
def attachSpec (y_arr : List ℚ) : List Lagrange → Nat → List Lagrange
  | [], _ => []
  | l :: rest, i => { l with numerator := y_arr.getD i 0 } :: attachSpec y_arr rest (i + 1)

theorem foldl_mul_sub (p : ℚ) : ∀ (l : List ℚ) (init : ℚ),
    l.foldl (fun acc x_val => acc * (p - x_val)) init
      = init * (l.map (fun x_val => p - x_val)).prod
  | [], init => by simp
  | x :: xs, init => by
    simp only [List.foldl_cons, List.map_cons, List.prod_cons]
    rw [foldl_mul_sub p xs (init * (p - x))]
    ring

theorem evaluate_eq_none_iff (l : Lagrange) (p : ℚ) :
    l.evaluate p = none ↔ l.denominator = 0 := by
  simp only [Lagrange.evaluate]
  split <;> simp_all

theorem evaluate_eq_some (l : Lagrange) (p : ℚ) (h : l.denominator ≠ 0) :
    l.evaluate p = some (evalVal l p) := by
  simp [Lagrange.evaluate, evalVal, h]

theorem evalVal_eq (l : Lagrange) (p : ℚ) :
    evalVal l p = l.numerator * (l.x_array.map (fun x_val => p - x_val)).prod / l.denominator := by
  rw [evalVal, foldl_mul_sub]

theorem evalAux_eq_some (p : ℚ) : ∀ (ls : List Lagrange) (s : ℚ),
    (∀ l ∈ ls, l.denominator ≠ 0) →
    evalAux p ls s = some (s + (ls.map (fun l => evalVal l p)).sum)
  | [], s, _ => by simp [evalAux]
  | l :: rest, s, h => by
    rw [evalAux, evaluate_eq_some l p (h l (List.mem_cons_self l rest))]
    show evalAux p rest (s + evalVal l p) = _
    rw [evalAux_eq_some p rest (s + evalVal l p) (fun l2 hl2 => h l2 (List.mem_cons_of_mem l hl2))]
    simp only [List.map_cons, List.sum_cons]
    ring_nf

theorem attachAux_eq_some (y_arr : List ℚ) : ∀ (ls : List Lagrange) (i : Nat),
    i + ls.length ≤ y_arr.length →
    attachAux y_arr ls i = some (attachSpec y_arr ls i)
  | [], i, _ => rfl
  | l :: rest, i, h => by
    have hi : i < y_arr.length := by simp at h; omega
    rw [attachAux, List.getElem?_eq_getElem hi, attachSpec]
    rw [attachAux_eq_some y_arr rest (i + 1) (by simp at h ⊢; omega)]
    rw [List.getD_eq_getElem y_arr 0 hi]
    rfl

theorem attachAux_eq_none (y_arr : List ℚ) : ∀ (ls : List Lagrange) (i : Nat),
    y_arr.length < i + ls.length → ls ≠ [] →
    attachAux y_arr ls i = none
  | [], _, _, hne => absurd rfl hne
  | l :: rest, i, h, _ => by
    rw [attachAux]
    rcases Nat.lt_or_ge i y_arr.length with hi | hi
    · rw [List.getElem?_eq_getElem hi]
      show ((attachAux y_arr rest (i + 1)).map _) = none
      have hrest : rest ≠ [] := by
        intro hr
        subst hr
        simp at h
        omega
      rw [attachAux_eq_none y_arr rest (i + 1) (by simp at h ⊢; omega) hrest]
      rfl
    · rw [List.getElem?_eq_none hi]

theorem attachSpec_length (y_arr : List ℚ) : ∀ (ls : List Lagrange) (i : Nat),
    (attachSpec y_arr ls i).length = ls.length
  | [], _ => by simp [attachSpec]
  | l :: rest, i => by
    rw [attachSpec, List.length_cons, List.length_cons, attachSpec_length y_arr rest (i + 1)]

theorem attachSpec_getD (y_arr : List ℚ) : ∀ (ls : List Lagrange) (i k : Nat), k < ls.length →
    (attachSpec y_arr ls i).getD k default
      = { ls.getD k default with numerator := y_arr.getD (i + k) 0 }
  | [], _, k, hk => by simp at hk
  | l :: rest, i, 0, _ => by simp [attachSpec]
  | l :: rest, i, k + 1, hk => by
    rw [attachSpec, List.getD_cons_succ, List.getD_cons_succ,
      attachSpec_getD y_arr rest (i + 1) k (by simp at hk; omega)]
    have harith : i + 1 + k = i + (k + 1) := by omega
    rw [harith]

theorem get_lagranges_length (x_arr : List ℚ) :
    (get_lagranges x_arr).length = x_arr.length := by
  simp [get_lagranges]

theorem get_lagranges_getD (x_arr : List ℚ) (i : Nat) (hi : i < x_arr.length) :
    (get_lagranges x_arr).getD i default =
      { x_array := ((List.range x_arr.length).filter (fun j => j ≠ i)).map
          (fun j => x_arr.getD j 0)
        denominator := (((List.range x_arr.length).filter (fun j => j ≠ i)).map
          (fun j => x_arr.getD i 0 - x_arr.getD j 0)).prod
        numerator := 1 } := by
  have hi2 : i < (get_lagranges x_arr).length := by rw [get_lagranges_length]; exact hi
  rw [List.getD_eq_getElem _ _ hi2]
  simp [get_lagranges]

theorem denominator_ne_zero (x_arr : List ℚ) (hnd : x_arr.Nodup) (i : Nat)
    (hi : i < x_arr.length) :
    ((get_lagranges x_arr).getD i default).denominator ≠ 0 := by
  rw [get_lagranges_getD x_arr i hi]
  refine List.prod_ne_zero (fun h0 => ?_)
  rcases List.mem_map.mp h0 with ⟨j, hjmem, hj0⟩
  rcases List.mem_filter.mp hjmem with ⟨hjr, hjne⟩
  have hjlt : j < x_arr.length := List.mem_range.mp hjr
  have hji : j ≠ i := by simpa using hjne
  have hxeq : x_arr.getD i 0 = x_arr.getD j 0 := sub_eq_zero.mp hj0
  rw [List.getD_eq_getElem _ _ hi, List.getD_eq_getElem _ _ hjlt] at hxeq
  exact hji ((hnd.getElem_inj_iff).mp hxeq.symm)

theorem mem_x_array (x_arr : List ℚ) (i k : Nat) (hi : i < x_arr.length)
    (hk : k < x_arr.length) (hki : k ≠ i) :
    x_arr.getD k 0 ∈ ((get_lagranges x_arr).getD i default).x_array := by
  rw [get_lagranges_getD x_arr i hi]
  refine List.mem_map.mpr ⟨k, ?_, rfl⟩
  simp only [List.mem_filter, List.mem_range, decide_eq_true_eq]
  exact ⟨hk, hki⟩

theorem evalVal_entry (x_arr y_arr : List ℚ) (hnd : x_arr.Nodup) (k i : Nat)
    (hk : k < x_arr.length) (hi : i < x_arr.length) :
    evalVal { (get_lagranges x_arr).getD i default with numerator := y_arr.getD i 0 }
        (x_arr.getD k 0)
      = if i = k then y_arr.getD k 0 else 0 := by
  rw [evalVal_eq]
  by_cases hik : i = k
  · subst hik
    rw [if_pos rfl]
    have hden := denominator_ne_zero x_arr hnd i hi
    rw [get_lagranges_getD x_arr i hi] at hden ⊢
    dsimp only
    rw [List.map_map]
    exact mul_div_cancel_right₀ _ hden
  · rw [if_neg hik]
    have hmem : x_arr.getD k 0 ∈ ((get_lagranges x_arr).getD i default).x_array :=
      mem_x_array x_arr i k hi hk (fun h => hik h.symm)
    have h0 : (0 : ℚ) ∈ (((get_lagranges x_arr).getD i default).x_array.map
        (fun x_val => x_arr.getD k 0 - x_val)) :=
      List.mem_map.mpr ⟨x_arr.getD k 0, hmem, by ring⟩
    dsimp only
    rw [List.prod_eq_zero h0]
    simp

theorem sum_single : ∀ (L : List ℚ) (k : Nat), k < L.length →
    (∀ j, j < L.length → j ≠ k → L.getD j 0 = 0) → L.sum = L.getD k 0
  | [], k, hk, _ => absurd hk (by simp)
  | a :: L, 0, _, h0 => by
    simp only [List.sum_cons, List.getD_cons_zero]
    have hL : L.sum = 0 := by
      refine List.sum_eq_zero (fun v hv => ?_)
      rcases List.mem_iff_getElem.mp hv with ⟨j, hj, rfl⟩
      have := h0 (j + 1) (by simp; omega) (by omega)
      rwa [List.getD_cons_succ, List.getD_eq_getElem _ _ hj] at this
    rw [hL, add_zero]
  | a :: L, k + 1, hk, h0 => by
    simp only [List.sum_cons, List.getD_cons_succ]
    have ha : a = 0 := by
      have := h0 0 (by simp) (by omega)
      simpa using this
    rw [ha, zero_add]
    refine sum_single L k (by simpa using hk) (fun j hj hjk => ?_)
    have := h0 (j + 1) (by simp; omega) (by omega)
    rwa [List.getD_cons_succ] at this

/-- C1: node exactness — for pairwise-distinct nodes `x` and targets `y` of the
same length, evaluating the interpolant `interpol_poly x y` at node `x[k]`
returns `y[k]`, for every index `k`. -/
theorem interpol_poly_exact_at_nodes (x_arr y_arr : List ℚ) (hnd : x_arr.Nodup)
    (hlen : y_arr.length = x_arr.length) (k : Nat) (hk : k < x_arr.length) :
    (interpol_poly x_arr y_arr).bind
        (fun ls => evaluate_lagranges ls (x_arr.getD k 0)) = some (y_arr.getD k 0) := by
  have hgl : (get_lagranges x_arr).length = x_arr.length := get_lagranges_length x_arr
  have hsome : interpol_poly x_arr y_arr
      = some (attachSpec y_arr (get_lagranges x_arr) 0) := by
    apply attachAux_eq_some
    omega
  set LS := attachSpec y_arr (get_lagranges x_arr) 0 with hLS
  have hLSlen : LS.length = x_arr.length := by
    rw [hLS, attachSpec_length, hgl]
  have hgetD : ∀ i, i < x_arr.length → LS.getD i default
      = { (get_lagranges x_arr).getD i default with numerator := y_arr.getD i 0 } := by
    intro i hi
    rw [hLS, attachSpec_getD y_arr _ 0 i (by omega)]
    simp only [Nat.zero_add]
  have hden : ∀ l ∈ LS, l.denominator ≠ 0 := by
    intro l hl
    rcases List.mem_iff_getElem.mp hl with ⟨j, hj, rfl⟩
    have hjx : j < x_arr.length := by omega
    rw [← List.getD_eq_getElem LS default hj, hgetD j hjx]
    exact denominator_ne_zero x_arr hnd j hjx
  rw [hsome]
  show evaluate_lagranges LS (x_arr.getD k 0) = _
  rw [evaluate_lagranges, evalAux_eq_some _ _ _ hden, zero_add]
  congr 1
  have hLlen : (LS.map (fun l => evalVal l (x_arr.getD k 0))).length = x_arr.length := by
    rw [List.length_map, hLSlen]
  have hLj : ∀ j, j < x_arr.length →
      (LS.map (fun l => evalVal l (x_arr.getD k 0))).getD j 0
        = if j = k then y_arr.getD k 0 else 0 := by
    intro j hj
    have hj2 : j < LS.length := by omega
    rw [List.getD_eq_getElem _ _ (by omega), List.getElem_map,
      ← List.getD_eq_getElem LS default hj2, hgetD j hj]
    exact evalVal_entry x_arr y_arr hnd k j hk hj
  rw [sum_single _ k (by omega) (fun j hjL hjk => by rw [hLj j (by omega)]; simp [hjk]),
    hLj k (by omega)]
  simp

/-- Witness for C1 at the spec's concrete scenario: nodes `[-1, 0, 1]`,
values `[-10, 1, 10]`, evaluated at node index 1 (the point 0) gives 1. -/
theorem interpol_poly_exact_at_nodes_witness :
    (interpol_poly [-1, 0, 1] [-10, 1, 10]).bind
        (fun ls => evaluate_lagranges ls (List.getD [-1, 0, 1] 1 0))
      = some (List.getD [-10, 1, 10] 1 0) :=
  interpol_poly_exact_at_nodes [-1, 0, 1] [-10, 1, 10] (by decide) (by decide) 1 (by decide)

theorem horner_foldl (x : ℚ) : ∀ (l : List ℚ) (a : ℚ),
    l.foldl (fun result coeff => result * x + coeff) a
      = a * x ^ l.length + naive_power_sum l x
  | [], a => by simp [naive_power_sum]
  | c :: l, a => by
    simp only [List.foldl_cons, naive_power_sum, List.length_cons]
    rw [horner_foldl x l (a * x + c)]
    ring

/-- C3: `horner` agrees with the naive power-sum evaluation on every
coefficient list and point, and `horner [3, -2, 10] 3 = 31`. -/
theorem horner_eq_naive_power_sum :
    (∀ (polynomial : List ℚ) (x_val : ℚ),
        horner polynomial x_val = naive_power_sum polynomial x_val)
      ∧ horner [3, -2, 10] 3 = 31 := by
  constructor
  · intro poly x
    have h := horner_foldl x poly 0
    simp only [horner]
    rw [h, zero_mul, zero_add]
  · norm_num [horner, List.foldl_cons, List.foldl_nil]

/-- C7: evaluating an empty basis at any point returns 0. -/
theorem evaluate_lagranges_empty (eval_point : ℚ) :
    evaluate_lagranges [] eval_point = some 0 := rfl

theorem map_getD_range : ∀ (x_arr : List ℚ),
    (List.range x_arr.length).map (fun j => x_arr.getD j 0) = x_arr
  | [] => by simp
  | a :: xs => by
    rw [List.length_cons, List.range_succ_eq_map, List.map_cons, List.map_map]
    rw [List.getD_cons_zero]
    congr 1
    have hcomp : ((fun j => (a :: xs).getD j 0) ∘ Nat.succ) = fun j => xs.getD j 0 := by
      funext j
      simp [List.getD_cons_succ]
    rw [hcomp, map_getD_range xs]

theorem filter_range_map_getD : ∀ (x_arr : List ℚ) (i : Nat),
    ((List.range x_arr.length).filter (fun j => j ≠ i)).map (fun j => x_arr.getD j 0)
      = x_arr.eraseIdx i
  | [], i => by simp
  | a :: xs, 0 => by
    rw [List.length_cons, List.range_succ_eq_map, List.eraseIdx_cons_zero, List.filter_cons]
    simp only [decide_eq_true_eq]
    rw [if_neg (by simp)]
    rw [List.filter_map]
    have hp : ((fun j => decide (j ≠ 0)) ∘ Nat.succ) = fun _ => true := by
      funext j
      simp
    rw [hp, List.filter_true, List.map_map]
    have hcomp : ((fun j => (a :: xs).getD j 0) ∘ Nat.succ) = fun j => xs.getD j 0 := by
      funext j
      simp [List.getD_cons_succ]
    rw [hcomp, map_getD_range xs]
  | a :: xs, i + 1 => by
    rw [List.length_cons, List.range_succ_eq_map, List.eraseIdx_cons_succ, List.filter_cons]
    rw [if_pos (by simp), List.map_cons, List.getD_cons_zero, List.filter_map]
    have hp : ((fun j => decide (j ≠ i + 1)) ∘ Nat.succ) = fun j => decide (j ≠ i) := by
      funext j
      simp
    rw [hp, List.map_map]
    have hcomp : ((fun j => (a :: xs).getD j 0) ∘ Nat.succ) = fun j => xs.getD j 0 := by
      funext j
      simp [List.getD_cons_succ]
    rw [hcomp]
    congr 1
    exact filter_range_map_getD xs i

theorem map_range_prod (n : Nat) (g : Nat → ℚ) :
    ((List.range n).map g).prod = ∏ j ∈ Finset.range n, g j := by
  induction n with
  | zero => simp
  | succ m ih =>
    rw [List.range_succ, List.map_append, List.prod_append, Finset.prod_range_succ, ih]
    simp

theorem prod_filter_eq_prod_ite (i : Nat) (g : Nat → ℚ) : ∀ (l : List Nat),
    ((l.filter (fun j => j ≠ i)).map g).prod
      = (l.map (fun j => if j = i then 1 else g j)).prod
  | [] => by simp
  | a :: l => by
    rw [List.filter_cons, List.map_cons, List.prod_cons]
    by_cases ha : a = i
    · rw [if_neg (by simp [ha]), if_pos ha, one_mul]
      exact prod_filter_eq_prod_ite i g l
    · rw [if_pos (by simp [ha]), List.map_cons, List.prod_cons, if_neg ha]
      rw [prod_filter_eq_prod_ite i g l]

theorem prod_ite_erase (n i : Nat) (hi : i < n) (g : Nat → ℚ) :
    (∏ j ∈ Finset.range n, if j = i then 1 else g j)
      = ∏ j ∈ (Finset.range n).erase i, g j := by
  rw [← Finset.mul_prod_erase (Finset.range n) (fun j => if j = i then 1 else g j)
    (Finset.mem_range.mpr hi)]
  rw [if_pos rfl, one_mul]
  refine Finset.prod_congr rfl (fun j hj => ?_)
  rw [if_neg (Finset.ne_of_mem_erase hj)]

/-- C2: `get_lagranges` on `n` nodes returns `n` entries; entry `i`'s
`x_array` is the input with index `i` removed (in order, length `n - 1`),
its denominator is the product over `j ≠ i` of `x[i] - x[j]`, and its
numerator is `1`. -/
theorem get_lagranges_entries (x_arr : List ℚ) :
    (get_lagranges x_arr).length = x_arr.length ∧
    ∀ i, i < x_arr.length →
      ((get_lagranges x_arr).getD i default).x_array = x_arr.eraseIdx i ∧
      ((get_lagranges x_arr).getD i default).x_array.length = x_arr.length - 1 ∧
      ((get_lagranges x_arr).getD i default).denominator
        = (∏ j ∈ (Finset.range x_arr.length).erase i, (x_arr.getD i 0 - x_arr.getD j 0)) ∧
      ((get_lagranges x_arr).getD i default).numerator = 1 := by
  refine ⟨get_lagranges_length x_arr, fun i hi => ?_⟩
  rw [get_lagranges_getD x_arr i hi]
  dsimp only
  refine ⟨filter_range_map_getD x_arr i, ?_, ?_, rfl⟩
  · rw [filter_range_map_getD x_arr i, List.length_eraseIdx, if_pos hi]
  · rw [prod_filter_eq_prod_ite, map_range_prod, prod_ite_erase _ _ hi]

/-- Witness for C2 at nodes `[1, 2, 3]`, entry 0: its `x_array` is the input
with index 0 removed. -/
theorem get_lagranges_entries_witness :
    ((get_lagranges [1, 2, 3]).getD 0 default).x_array = List.eraseIdx [(1 : ℚ), 2, 3] 0 :=
  ((get_lagranges_entries [1, 2, 3]).2 0 (by decide)).1

/-- C4: with two equal coordinates, `get_lagranges` still returns a full batch
of entries — no validation happens at build time — the affected entry's
denominator is exactly zero, and only `evaluate` fails (division by zero),
at every evaluation point. -/
theorem get_lagranges_duplicate (x_arr : List ℚ) (i j : Nat) (hi : i < x_arr.length)
    (hj : j < x_arr.length) (hij : i ≠ j) (heq : x_arr.getD i 0 = x_arr.getD j 0) :
    (get_lagranges x_arr).length = x_arr.length ∧
    ((get_lagranges x_arr).getD i default).denominator = 0 ∧
    ∀ p, ((get_lagranges x_arr).getD i default).evaluate p = none := by
  have hden : ((get_lagranges x_arr).getD i default).denominator = 0 := by
    rw [get_lagranges_getD x_arr i hi]
    dsimp only
    apply List.prod_eq_zero
    refine List.mem_map.mpr ⟨j, ?_, ?_⟩
    · simp only [List.mem_filter, List.mem_range, decide_eq_true_eq]
      exact ⟨hj, fun h => hij h.symm⟩
    · rw [heq]
      ring
  exact ⟨get_lagranges_length x_arr, hden, fun p => (evaluate_eq_none_iff _ p).mpr hden⟩

/-- Witness for C4 at the duplicate node list `[1, 1]`: entry 0's denominator
is zero. -/
theorem get_lagranges_duplicate_witness :
    ((get_lagranges [1, 1]).getD 0 default).denominator = 0 :=
  (get_lagranges_duplicate [1, 1] 0 1 (by decide) (by decide) (by decide) rfl).2.1

/-- C5 counterexample: the claim says any length mismatch between `y_values`
and the basis produces an index-out-of-range failure, but with `y_values`
longer than the basis (here 2 values against a 1-entry basis) `interpol_poly`
succeeds: the loop only reads `y_arr[i]` for `i` below the basis length. -/
theorem interpol_poly_longer_y_succeeds :
    ([5, 6] : List ℚ).length ≠ (get_lagranges [0]).length ∧
    (interpol_poly [0] [5, 6]).isSome = true := by
  constructor
  · rw [get_lagranges_length]
    simp
  · rfl

/-- C5 (amended): `interpol_poly` fails (index out of range) exactly when
`y_values` is shorter than the basis; when it is at least as long — including
strictly longer — it succeeds, setting entry `i`'s numerator to `y_values[i]`
and leaving every entry's `x_array` and `denominator` unchanged. -/
theorem interpol_poly_attach (x_arr y_arr : List ℚ) :
    (y_arr.length < (get_lagranges x_arr).length → interpol_poly x_arr y_arr = none) ∧
    ((get_lagranges x_arr).length ≤ y_arr.length →
      ∃ ls, interpol_poly x_arr y_arr = some ls ∧
        ls.length = (get_lagranges x_arr).length ∧
        ∀ i, i < ls.length →
          (ls.getD i default).numerator = y_arr.getD i 0 ∧
          (ls.getD i default).x_array = ((get_lagranges x_arr).getD i default).x_array ∧
          (ls.getD i default).denominator
            = ((get_lagranges x_arr).getD i default).denominator) := by
  constructor
  · intro hlt
    apply attachAux_eq_none y_arr _ 0 (by omega)
    intro hnil
    rw [hnil] at hlt
    simp at hlt
  · intro hle
    refine ⟨attachSpec y_arr (get_lagranges x_arr) 0,
      attachAux_eq_some y_arr _ 0 (by omega), attachSpec_length y_arr _ 0, fun i hi => ?_⟩
    have hi2 : i < (get_lagranges x_arr).length := by
      rw [attachSpec_length] at hi
      exact hi
    rw [attachSpec_getD y_arr _ 0 i hi2]
    exact ⟨by simp, rfl, rfl⟩

/-- Witness for C5 (amended): a shorter target list fails; an equal-length one
succeeds with the numerator attached and the rest of the entry unchanged. -/
theorem interpol_poly_attach_witness :
    interpol_poly [0, 1] [5] = none ∧
    ∃ ls, interpol_poly [0] [5] = some ls ∧
      ls.length = (get_lagranges [0]).length ∧
      ∀ i, i < ls.length →
        (ls.getD i default).numerator = List.getD [5] i 0 ∧
        (ls.getD i default).x_array = ((get_lagranges [0]).getD i default).x_array ∧
        (ls.getD i default).denominator = ((get_lagranges [0]).getD i default).denominator :=
  ⟨(interpol_poly_attach [0, 1] [5]).1 (by rw [get_lagranges_length]; simp),
   (interpol_poly_attach [0] [5]).2 (by rw [get_lagranges_length]; simp)⟩

/-- C6 counterexample: on `[4, 3, -2, 10]` the code does not produce
`"4x^3 +3x^2 -2x^1 10"`: the `+` appended after the `-2x^1` term is not
collapsed before the constant, because the last-index return happens before
the negative-coefficient check. -/
theorem convert_poly_to_str_example_ne :
    convert_poly_to_str [4, 3, -2, 10] ≠ some "4x^3 +3x^2 -2x^1 10" := by
  decide

/-- C6 (amended): `convert_poly_to_str [4, 3, -2, 10]` produces
`"4x^3 +3x^2 -2x^1 + 10"` — terms in order, exponents 3 down to 1, the `+`
before the negative coefficient collapsed away, and the constant appended
with a leading space after the preceding term's uncollapsed `+`. -/
theorem convert_poly_to_str_example :
    convert_poly_to_str [4, 3, -2, 10] = some "4x^3 +3x^2 -2x^1 + 10" := rfl

/-- C9: `convert_poly_to_str` on an empty coefficient list falls through its
loop and returns Python's `None` (`none`), not an empty string and not an
explicit failure. -/
theorem convert_poly_to_str_nil :
    convert_poly_to_str ([] : List Int) = none := rfl

theorem evalAuxS_eq (p : ℚ) : ∀ (ls : List Lagrange) (s : ℚ),
    evalAuxS p ls s = (evalAux p ls s, ls)
  | [], _ => rfl
  | l :: rest, s => by
    simp only [evalAuxS, evalAux, Lagrange.evaluateS]
    cases h : l.evaluate p with
    | none => rfl
    | some v => simp only [evalAuxS_eq p rest (s + v)]

/-- C8: evaluation is side-effect-free — the state-passing run of
`evaluate_lagranges` returns the basis unchanged, so a second call on the
post-state returns the identical result and state. -/
theorem evaluate_lagranges_no_mutation (lagrange_list : List Lagrange) (eval_point : ℚ) :
    (evaluate_lagrangesS lagrange_list eval_point).2 = lagrange_list ∧
    evaluate_lagrangesS (evaluate_lagrangesS lagrange_list eval_point).2 eval_point
      = evaluate_lagrangesS lagrange_list eval_point := by
  have h := evalAuxS_eq eval_point lagrange_list 0
  constructor
  · rw [evaluate_lagrangesS, h]
  · simp only [evaluate_lagrangesS, h]

theorem plus_swap (A B : String) : (A ++ " +") ++ " " ++ B = (A ++ " ") ++ ("+ " ++ B) :=
  calc ((A ++ " +") ++ " ") ++ B
      = (A ++ (" +" ++ " ")) ++ B := by rw [String.append_assoc A " +" " "]
    _ = (A ++ (" " ++ "+ ")) ++ B := rfl
    _ = ((A ++ " ") ++ "+ ") ++ B := by rw [← String.append_assoc A " " "+ "]
    _ = (A ++ " ") ++ ("+ " ++ B) := by rw [String.append_assoc (A ++ " ") "+ " B]

theorem convertAux_trailing (n : Nat) : ∀ (rest : List Int) (i : Nat) (ps : String) (c : Int),
    i + rest.length = n → 2 ≤ rest.length → rest.getLast? = some c →
    ∃ t, convertAux n rest i ps = some (t ++ ("+ " ++ toString c))
  | [], _, _, _, _, h2, _ => by simp at h2
  | [_], _, _, _, _, h2, _ => by simp at h2
  | c1 :: c2 :: rest2, i, ps, c, hn, _, hlast => by
    rw [convertAux, if_neg (by simp at hn; omega)]
    rcases rest2 with _ | ⟨c3, rest3⟩
    · have hc : c = c2 := by
        rw [List.getLast?_cons_cons, List.getLast?_singleton] at hlast
        exact (Option.some.inj hlast).symm
      subst hc
      rw [convertAux, if_pos (by simp at hn; omega)]
      exact ⟨((if c1 < 0 then ps.dropRight 1 else ps) ++ toString c1 ++ "x^"
          ++ toString (n - (i + 1))) ++ " ",
        congrArg some (plus_swap _ (toString c))⟩
    · have hlast2 : (c2 :: c3 :: rest3).getLast? = some c := by
        rwa [List.getLast?_cons_cons] at hlast
      exact convertAux_trailing n (c2 :: c3 :: rest3) (i + 1) _ c
        (by simp at hn ⊢; omega) (by simp) hlast2

/-- C10: when the last coefficient is negative (list length at least 2), the
sign-collapse never applies to it: the returned string is the preceding terms
followed by `"+ "` and then the negative constant, because the last-index
return happens before the negative-coefficient check. -/
theorem convert_poly_to_str_trailing_plus (coeffs : List Int) (c : Int)
    (h2 : 2 ≤ coeffs.length) (hlast : coeffs.getLast? = some c) (hneg : c < 0) :
    ∃ t, convert_poly_to_str coeffs = some (t ++ ("+ " ++ toString c)) := by
  rw [convert_poly_to_str]
  exact convertAux_trailing coeffs.length coeffs 0 "" c (Nat.zero_add _) h2 hlast

/-- Witness for C10 at coefficients `[1, -2]`: the output ends in `"+ -2"`
(it is `"1x^1 + -2"`). -/
theorem convert_poly_to_str_trailing_plus_witness :
    ∃ t, convert_poly_to_str [1, -2] = some (t ++ ("+ " ++ toString (-2 : Int))) :=
  convert_poly_to_str_trailing_plus [1, -2] (-2) (by decide) rfl (by decide)
